import Mathlib

/-!
Shallow embedding of `src/lib.rs` (the SlotVec repository): a growable
`Vec<Option<u8>>` together with an occupancy state machine
(`Empty` / `Full(n)` / `NotFull(n, avail)`).

Modelling conventions:
* `Vec<Option<u8>>` becomes `List (Option Nat)`; the element type `u8` is
  modelled as `Nat` since the program never performs arithmetic on elements.
* The `u32` counters are modelled as `Nat`.  The only subtractions the code
  performs on them (`avail - 1`, `n - 1`) are executed on values that are
  at least `1` in every state reachable through the public API (proved below
  via the invariant `StateInv`), so truncated `Nat` subtraction coincides with the
  `u32` arithmetic there; counter overflow at `2^32` insertions is outside the
  spec's "no capacity limit other than available memory" contract.
* Rust panics (out-of-bounds `Vec` indexing, `Option::unwrap` on `None`, and
  the explicit `panic!` in `add`) are modelled as `Except` errors; in every
  such case the fields of the returned pair record exactly the program state
  at the abort point.
-/

/-- `CollectionState` from the source: `Empty`, `Full(u32)`, `NotFull(u32, u32)`. -/
inductive CollectionState
  | Empty
  | Full (n : Nat)
  | NotFull (n avail : Nat)
deriving DecidableEq

/-- `Collection` from the source: the backing storage plus the occupancy state. -/
structure Collection where
  inner : List (Option Nat)
  state : CollectionState
deriving DecidableEq

/-- `Collection::new`: empty storage, state `Empty`. -/
def Collection.new : Collection :=
  ⟨[], .Empty⟩

/-- The two ways `Collection::add` can abort: the indexing `self.inner[i]`
inside the scan loop going out of bounds, and the explicit
`panic!("Collection notfull, but no available slot found!")` after the loop. -/
inductive AddPanic
  | indexOutOfBounds
  | noVacantSlot
deriving DecidableEq

/-- The `for i in 0..n` scan inside `Collection::add`'s `NotFull` arm,
searching for the first vacant slot.  `i` is the loop variable and `k` the
number of iterations left (initially `n`).  `.error ()` is the panic of the
indexing `self.inner[i as usize]`, `.ok none` means the loop finished without
finding a vacancy, `.ok (some i)` is the `return i` on the first vacant slot. -/
def scanVacant (l : List (Option Nat)) : Nat → Nat → Except Unit (Option Nat)
  | _, 0 => .ok none
  | i, k + 1 =>
    match l[i]? with
    | none => .error ()
    | some slot => if slot.isNone then .ok (some i) else scanVacant l (i + 1) k

/-- `Collection::add`.  `Empty` and `Full(n)` push at the end; `NotFull(n, avail)`
scans positions `0..n` for the first vacant slot and places the item there,
decrementing `avail` (becoming `Full` when no vacancy remains).  If the scan
finds no vacancy the function hits the `panic!` branch, modelled as
`.error .noVacantSlot` with the collection unchanged (nothing was written). -/
def Collection.add (c : Collection) (item : Nat) : Except AddPanic Nat × Collection :=
  match c.state with
  | .Empty => (.ok 0, ⟨c.inner ++ [some item], .Full 1⟩)
  | .Full n => (.ok n, ⟨c.inner ++ [some item], .Full (n + 1)⟩)
  | .NotFull n avail =>
    let avail := avail - 1
    match scanVacant c.inner 0 n with
    | .ok (some i) =>
      (.ok i, ⟨c.inner.set i (some item),
        if 0 < avail then .NotFull (n + 1) avail else .Full (n + 1)⟩)
    | .ok none => (.error .noVacantSlot, c)
    | .error _ => (.error .indexOutOfBounds, c)

/-- The two ways `Collection::take` can abort: `self[index]` (a direct `Vec`
index) with `index` out of bounds, and `.unwrap()` on a vacant slot. -/
inductive TakeErr
  | outOfBounds
  | vacantSlot
deriving DecidableEq

/-- `Collection::take`: `self[index].take().unwrap()` followed by the state
update.  Out-of-bounds indexing aborts before anything is written.
`Option::take` overwrites the slot with `None` (returning its old contents),
so on a vacant slot the `.unwrap()` aborts after a write of `None` over
`None`; the second component records exactly the state at the abort point. -/
def Collection.take (c : Collection) (index : Nat) : Except TakeErr Nat × Collection :=
  match c.inner[index]? with
  | none => (.error .outOfBounds, c)
  | some slot =>
    let afterTake : Collection := ⟨c.inner.set index none, c.state⟩
    match slot with
    | none => (.error .vacantSlot, afterTake)
    | some v =>
      let st :=
        match c.state with
        | .Full n => CollectionState.NotFull (n - 1) 1
        | .NotFull n avail => CollectionState.NotFull (n - 1) (avail + 1)
        | .Empty => CollectionState.Empty
      (.ok v, ⟨afterTake.inner, st⟩)

/-- `Collection::len`: the count recorded in the state (`0` for `Empty`). -/
def Collection.len (c : Collection) : Nat :=
  match c.state with
  | .Full n => n
  | .NotFull n _ => n
  | .Empty => 0

/-- `Collection::is_empty`: `Empty` and `NotFull(0, _)` are empty. -/
def Collection.is_empty (c : Collection) : Bool :=
  match c.state with
  | .Empty => true
  | .NotFull n _ => n == 0
  | .Full _ => false

/-- Number of occupied slots in a storage list. -/
def occCount (l : List (Option Nat)) : Nat :=
  l.countP (fun o => o.isSome)

/-- Number of vacant slots in a storage list. -/
def vacCount (l : List (Option Nat)) : Nat :=
  l.countP (fun o => o.isNone)

/-- Bookkeeping invariant tying the recorded counters to the storage:
the recorded occupied count matches the actual number of occupied slots and
the counters sum to the physical length (`Full` and `NotFull` record at least
one element and at least one vacancy respectively). -/
def StateInv (c : Collection) : Prop :=
  match c.state with
  | .Empty => c.inner = []
  | .Full n => 1 ≤ n ∧ c.inner.length = n ∧ occCount c.inner = n
  | .NotFull n f => 1 ≤ f ∧ c.inner.length = n + f ∧ occCount c.inner = n

/-- Collections reachable through the public API: `new`, any `add` that
returns an index, and any `take` on a currently-occupied in-bounds index.
Aborting calls leave the collection unchanged, so they add no new states. -/
inductive Reachable : Collection → Prop
  | new : Reachable Collection.new
  | add (c d : Collection) (x i : Nat) :
      Reachable c → Collection.add c x = (.ok i, d) → Reachable d
  | take (c d : Collection) (i v : Nat) :
      Reachable c → Collection.take c i = (.ok v, d) → Reachable d

/-! ### Small list lemmas used throughout -/

lemma getElem?_some_lt {α : Type} {l : List α} {i : Nat} {a : α}
    (h : l[i]? = some a) : i < l.length :=
  (List.getElem?_eq_some.mp h).1

lemma drop_cons_of_getElem? {α : Type} {l : List α} {i : Nat} {a : α}
    (h : l[i]? = some a) : l.drop i = a :: l.drop (i + 1) := by
  obtain ⟨hlt, he⟩ := List.getElem?_eq_some.mp h
  rw [List.drop_eq_getElem_cons hlt, he]

lemma set_none_eq_self {l : List (Option Nat)} {i : Nat}
    (h : l[i]? = some none) : l.set i none = l := by
  induction l generalizing i with
  | nil => simp at h
  | cons a t ih =>
    cases i with
    | zero =>
      simp only [List.getElem?_cons_zero, Option.some.injEq] at h
      simp [h]
    | succ j =>
      simp only [List.getElem?_cons_succ] at h
      simp [ih h]

lemma countP_isSome_set {l : List (Option Nat)} {i : Nat} {a : Option Nat}
    (b : Option Nat) (h : l[i]? = some a) :
    occCount (l.set i b) + (if a.isSome then 1 else 0)
      = occCount l + (if b.isSome then 1 else 0) := by
  induction l generalizing i with
  | nil => simp at h
  | cons hd t ih =>
    cases i with
    | zero =>
      simp only [List.getElem?_cons_zero, Option.some.injEq] at h
      subst h
      simp only [List.set, occCount, List.countP_cons]
      omega
    | succ j =>
      simp only [List.getElem?_cons_succ] at h
      have := ih h
      simp only [List.set, occCount, List.countP_cons] at *
      omega

lemma occCount_set_fill {l : List (Option Nat)} {i : Nat} (x : Nat)
    (h : l[i]? = some none) : occCount (l.set i (some x)) = occCount l + 1 := by
  have := countP_isSome_set (some x) h
  simpa using this

lemma occCount_set_clear {l : List (Option Nat)} {i : Nat} {v : Nat}
    (h : l[i]? = some (some v)) : occCount (l.set i none) + 1 = occCount l := by
  have := countP_isSome_set none h
  simpa using this

lemma occCount_pos {l : List (Option Nat)} {i : Nat} {v : Nat}
    (h : l[i]? = some (some v)) : 1 ≤ occCount l := by
  have hmem : (some v) ∈ l := List.getElem?_mem h
  exact List.countP_pos_iff.mpr ⟨some v, hmem, rfl⟩

lemma occ_add_vac (l : List (Option Nat)) : occCount l + vacCount l = l.length := by
  induction l with
  | nil => simp [occCount, vacCount]
  | cons a t ih =>
    cases a <;> simp [occCount, vacCount, List.countP_cons] at * <;> omega

/-! ### Preservation of the bookkeeping invariant -/

lemma stateInv_empty {l : List (Option Nat)} :
    StateInv ⟨l, .Empty⟩ ↔ l = [] := Iff.rfl

lemma stateInv_full {l : List (Option Nat)} {n : Nat} :
    StateInv ⟨l, .Full n⟩ ↔ 1 ≤ n ∧ l.length = n ∧ occCount l = n := Iff.rfl

lemma stateInv_notFull {l : List (Option Nat)} {n f : Nat} :
    StateInv ⟨l, .NotFull n f⟩ ↔ 1 ≤ f ∧ l.length = n + f ∧ occCount l = n := Iff.rfl

lemma len_mk {l : List (Option Nat)} {s : CollectionState} :
    Collection.len ⟨l, s⟩ = match s with
      | .Full n => n
      | .NotFull n _ => n
      | .Empty => 0 := rfl

lemma scanVacant_ok_some {l : List (Option Nat)} :
    ∀ {k i j : Nat}, scanVacant l i k = .ok (some j) → i ≤ j ∧ l[j]? = some none := by
  intro k
  induction k with
  | zero => intro i j h; simp [scanVacant] at h
  | succ m ih =>
    intro i j h
    rw [scanVacant] at h
    cases hg : l[i]? with
    | none => rw [hg] at h; exact absurd h (by simp)
    | some slot =>
      rw [hg] at h
      cases slot with
      | none =>
        simp only [Option.isNone_none, if_true, Except.ok.injEq, Option.some.injEq] at h
        subst h
        exact ⟨Nat.le_refl _, hg⟩
      | some w =>
        simp only [Option.isNone_some, Bool.false_eq_true, if_false] at h
        obtain ⟨hle, hj⟩ := ih h
        exact ⟨by omega, hj⟩

lemma add_ok_spec {c : Collection} {x i : Nat} {d : Collection}
    (hInv : StateInv c) (h : Collection.add c x = (.ok i, d)) :
    StateInv d ∧ d.len = c.len + 1 := by
  obtain ⟨inner, state⟩ := c
  cases state with
  | Empty =>
    rw [stateInv_empty] at hInv
    subst hInv
    simp only [Collection.add, Prod.mk.injEq, Except.ok.injEq] at h
    obtain ⟨hi, hd⟩ := h
    subst hd
    refine ⟨stateInv_full.mpr ⟨by omega, by simp, by simp [occCount]⟩, by simp [len_mk]⟩
  | Full n =>
    obtain ⟨hn, hlen, hocc⟩ := stateInv_full.mp hInv
    simp only [Collection.add, Prod.mk.injEq, Except.ok.injEq] at h
    obtain ⟨hi, hd⟩ := h
    subst hd
    refine ⟨stateInv_full.mpr ⟨by omega, ?_, ?_⟩, by simp [len_mk]⟩
    · simp only [List.length_append, List.length_cons, List.length_nil]
      omega
    · simp only [occCount, List.countP_append] at hocc ⊢
      simp [hocc]
  | NotFull n f =>
    obtain ⟨hf, hlen, hocc⟩ := stateInv_notFull.mp hInv
    simp only [Collection.add] at h
    cases hs : scanVacant inner 0 n with
    | error e => rw [hs] at h; exact absurd h (by simp)
    | ok r =>
      cases r with
      | none => rw [hs] at h; exact absurd h (by simp)
      | some j =>
        rw [hs] at h
        simp only [Prod.mk.injEq, Except.ok.injEq] at h
        obtain ⟨hi, hd⟩ := h
        obtain ⟨-, hvac⟩ := scanVacant_ok_some hs
        subst hd
        have hfill := occCount_set_fill x hvac
        by_cases hav : 0 < f - 1
        · simp only [if_pos hav]
          refine ⟨stateInv_notFull.mpr ⟨by omega, ?_, ?_⟩, by simp [len_mk]⟩
          · simp only [List.length_set]; omega
          · simp only [hfill, hocc]
        · simp only [if_neg hav]
          refine ⟨stateInv_full.mpr ⟨by omega, ?_, ?_⟩, by simp [len_mk]⟩
          · simp only [List.length_set]; omega
          · simp only [hfill, hocc]

lemma take_ok_spec {c : Collection} {i v : Nat} {d : Collection}
    (hInv : StateInv c) (h : Collection.take c i = (.ok v, d)) :
    StateInv d ∧ d.len + 1 = c.len ∧ ∃ n f, d.state = .NotFull n f := by
  obtain ⟨inner, state⟩ := c
  cases hg : inner[i]? with
  | none =>
    simp only [Collection.take, hg] at h
    exact absurd h (by simp)
  | some slot =>
    cases slot with
    | none =>
      simp only [Collection.take, hg] at h
      exact absurd h (by simp)
    | some w =>
      simp only [Collection.take, hg, Prod.mk.injEq, Except.ok.injEq] at h
      obtain ⟨hv, hd⟩ := h
      have hopos : 1 ≤ occCount inner := occCount_pos hg
      have hclear := occCount_set_clear hg
      cases state with
      | Empty =>
        rw [stateInv_empty] at hInv
        subst hInv
        simp at hg
      | Full n =>
        obtain ⟨hn, hlen, hocc⟩ := stateInv_full.mp hInv
        subst hd
        refine ⟨stateInv_notFull.mpr ⟨by omega, ?_, ?_⟩,
          by simp only [len_mk]; omega, ⟨n - 1, 1, rfl⟩⟩
        · simp only [List.length_set]; omega
        · omega
      | NotFull n f =>
        obtain ⟨hf, hlen, hocc⟩ := stateInv_notFull.mp hInv
        subst hd
        refine ⟨stateInv_notFull.mpr ⟨by omega, ?_, ?_⟩,
          by simp only [len_mk]; omega, ⟨n - 1, f + 1, rfl⟩⟩
        · simp only [List.length_set]; omega
        · omega

lemma reachable_inv {c : Collection} (h : Reachable c) : StateInv c := by
  induction h with
  | new => exact stateInv_empty.mpr rfl
  | add c d x i hr he ih => exact (add_ok_spec ih he).1
  | take c d i v hr he ih => exact (take_ok_spec ih he).1

/-! ### Operation traces -/

/-- One public mutating call: `add(x)` or `take(i)`. -/
inductive Op
  | add (x : Nat)
  | take (i : Nat)
deriving DecidableEq

/-- Run a sequence of calls from a starting collection; `none` as soon as a
call aborts (`add` panicking) or fails (`take` on a vacant or out-of-bounds
index). -/
def runTrace (c : Collection) : List Op → Option Collection
  | [] => some c
  | .add x :: rest =>
    match Collection.add c x with
    | (.ok _, d) => runTrace d rest
    | (.error _, _) => none
  | .take i :: rest =>
    match Collection.take c i with
    | (.ok _, d) => runTrace d rest
    | (.error _, _) => none

/-- Number of inserts in a trace. -/
def countAdds (ops : List Op) : Nat :=
  ops.countP (fun o => match o with | .add _ => true | .take _ => false)

/-- Number of removes in a trace. -/
def countTakes (ops : List Op) : Nat :=
  ops.countP (fun o => match o with | .add _ => false | .take _ => true)

lemma runTrace_len : ∀ (ops : List Op) {a b : Collection}, StateInv a →
    runTrace a ops = some b →
    StateInv b ∧ b.len + countTakes ops = a.len + countAdds ops := by
  intro ops
  induction ops with
  | nil =>
    intro a b hI h
    simp only [runTrace, Option.some.injEq] at h
    subst h
    exact ⟨hI, by simp [countAdds, countTakes]⟩
  | cons op rest ih =>
    intro a b hI h
    cases op with
    | add x =>
      simp only [runTrace] at h
      cases ha : Collection.add a x with
      | mk r d =>
        rw [ha] at h
        cases r with
        | ok j =>
          obtain ⟨hId, hlen⟩ := add_ok_spec hI ha
          obtain ⟨hIb, hb⟩ := ih hId (h : runTrace d rest = some b)
          refine ⟨hIb, ?_⟩
          simp [countAdds, countTakes, List.countP_cons] at hb ⊢
          omega
        | error e =>
          exact absurd (h : (none : Option Collection) = some b) (by simp)
    | take i =>
      simp only [runTrace] at h
      cases ha : Collection.take a i with
      | mk r d =>
        rw [ha] at h
        cases r with
        | ok v =>
          obtain ⟨hId, hlen, -⟩ := take_ok_spec hI ha
          obtain ⟨hIb, hb⟩ := ih hId (h : runTrace d rest = some b)
          refine ⟨hIb, ?_⟩
          simp [countAdds, countTakes, List.countP_cons] at hb ⊢
          omega
        | error e =>
          exact absurd (h : (none : Option Collection) = some b) (by simp)

/-! ### Concrete reachable states used as witnesses -/

lemma reach_full1 : Reachable (⟨[some 10], .Full 1⟩ : Collection) :=
  Reachable.add Collection.new _ 10 0 Reachable.new rfl

lemma reach_full2 : Reachable (⟨[some 10, some 20], .Full 2⟩ : Collection) :=
  Reachable.add _ _ 20 1 reach_full1 rfl

lemma reach_gap : Reachable (⟨[some 10, none], .NotFull 1 1⟩ : Collection) :=
  Reachable.take _ _ 1 20 reach_full2 rfl

/-- The state produced by `new(); add(1); take(0)`: a single vacant slot with
recorded occupied count `0` and one recorded vacancy. -/
lemma reach_bug : Reachable (⟨[none], .NotFull 0 1⟩ : Collection) :=
  Reachable.take ⟨[some 1], .Full 1⟩ _ 0 1
    (Reachable.add Collection.new _ 1 0 Reachable.new rfl) rfl

/-! ### Claims -/

/-- C1: the claim "add always succeeds; the fatal `PartiallyFull claimed but
no vacant slot found` branch is never reached through the public contract" is
refuted by the code: the state reached by `new(); add(1); take(0)` (a valid
remove of the occupied index `0`) makes the very next `add` scan positions
`0..0`, find no vacancy, and hit the `panic!` branch. -/
theorem add_noVacant_panic_reachable :
    Reachable (⟨[none], .NotFull 0 1⟩ : Collection) ∧
    (Collection.add ⟨[none], .NotFull 0 1⟩ 2).1 = .error .noVacantSlot :=
  ⟨reach_bug, rfl⟩

/-- C2: the claim "in every reachable `NotFull(n, free)` state every vacant
slot lies strictly below `n`" is refuted: `new(); add(1); take(0)` reaches
state `NotFull(0, 1)` whose storage `[None]` has its vacant slot at index `0`,
which is not strictly below the occupied count `0`. -/
theorem vacancy_at_or_above_count_reachable :
    Reachable (⟨[none], .NotFull 0 1⟩ : Collection) ∧
    (⟨[none], .NotFull 0 1⟩ : Collection).state = .NotFull 0 1 ∧
    (⟨[none], .NotFull 0 1⟩ : Collection).inner[0]? = some none ∧
    ¬ (0 : Nat) < 0 :=
  ⟨reach_bug, rfl, rfl, by omega⟩

/-- C3: the claim "in every `NotFull` collection, `add` stores the value in
the lowest-index vacant slot and returns that index" is refuted: in the
reachable state `⟨[None], NotFull(0, 1)⟩` the lowest-index vacant slot is `0`,
but `add` panics (returning no index and storing nothing) instead of filling
it. -/
theorem add_lowest_reuse_violated :
    Reachable (⟨[none], .NotFull 0 1⟩ : Collection) ∧
    (⟨[none], .NotFull 0 1⟩ : Collection).inner[0]? = some none ∧
    (Collection.add ⟨[none], .NotFull 0 1⟩ 2).1 ≠ .ok 0 ∧
    (Collection.add ⟨[none], .NotFull 0 1⟩ 2).2 = ⟨[none], .NotFull 0 1⟩ :=
 by
  refine ⟨reach_bug, rfl, ?_, rfl⟩
  show (Except.error AddPanic.noVacantSlot : Except AddPanic Nat) ≠ Except.ok 0
  simp

/-- C4: `take(index)` with `index` out of physical bounds fails with the
out-of-bounds error, and `take` on a currently-vacant slot fails with the
vacant-slot (double-remove) error; in both cases no value is returned and the
collection — storage and occupancy state — is returned exactly as it was
(the `None`-over-`None` write performed by `Option::take` before the
`.unwrap()` abort is a no-op, proved by `set_none_eq_self`). -/
theorem take_error_cases_preserve_state (c : Collection) (i : Nat) :
    (c.inner.length ≤ i → Collection.take c i = (.error .outOfBounds, c)) ∧
    (c.inner[i]? = some none → Collection.take c i = (.error .vacantSlot, c)) := by
  constructor
  · intro h
    have hg : c.inner[i]? = none := List.getElem?_eq_none h
    simp only [Collection.take, hg]
  · intro h
    simp only [Collection.take, h]
    rw [set_none_eq_self h]

/-- Witness for C4 at concrete inputs: `take(5)` and `take(0)` on the
two-slot collection `[None, Some 2]` in state `NotFull(1, 1)`. -/
theorem take_error_cases_concrete :
    Collection.take ⟨[none, some 2], .NotFull 1 1⟩ 5
      = (.error .outOfBounds, ⟨[none, some 2], .NotFull 1 1⟩) ∧
    Collection.take ⟨[none, some 2], .NotFull 1 1⟩ 0
      = (.error .vacantSlot, ⟨[none, some 2], .NotFull 1 1⟩) :=
  ⟨(take_error_cases_preserve_state _ 5).1 (by decide),
   (take_error_cases_preserve_state _ 0).2 rfl⟩

/-- C7: in every reachable non-`Empty` collection the recorded occupied count
plus the recorded free count equals the physical storage length, and in
`Full(n)` the count `n` equals the storage length with zero actual vacancies.
Reachability is closed under `add` and successful `take`, so this is exactly
preservation by every mutation. -/
theorem state_counters_match_storage (c : Collection) (h : Reachable c) :
    (∀ n f, c.state = .NotFull n f → n + f = c.inner.length) ∧
    (∀ n, c.state = .Full n → n = c.inner.length ∧ vacCount c.inner = 0) := by
  have hI := reachable_inv h
  obtain ⟨inner, state⟩ := c
  have hsum := occ_add_vac inner
  cases state with
  | Empty =>
    constructor
    · intro n f hf
      exact absurd hf (by simp)
    · intro n hf
      exact absurd hf (by simp)
  | Full n =>
    obtain ⟨hn, hlen, hocc⟩ := stateInv_full.mp hI
    constructor
    · intro n' f' hf
      exact absurd hf (by simp)
    · intro n' hf
      have h2 : CollectionState.Full n = CollectionState.Full n' := hf
      injection h2 with h3
      subst h3
      show n = inner.length ∧ vacCount inner = 0
      constructor
      · omega
      · omega
  | NotFull n f =>
    obtain ⟨hf1, hlen, hocc⟩ := stateInv_notFull.mp hI
    constructor
    · intro n' f' hf
      have h2 : CollectionState.NotFull n f = CollectionState.NotFull n' f' := hf
      injection h2 with h3 h4
      subst h3
      subst h4
      show n + f = inner.length
      omega
    · intro n' hf
      exact absurd hf (by simp)

/-- Witness for C7 at the concrete reachable state
`⟨[Some 10, None], NotFull(1, 1)⟩` (reached by `add(10); add(20); take(1)`). -/
theorem state_counters_match_storage_concrete :
    1 + 1 = (⟨[some 10, none], .NotFull 1 1⟩ : Collection).inner.length :=
  (state_counters_match_storage _ reach_gap).1 1 1 rfl

/-- C8: `len()` equals the number of currently-occupied slots in every
reachable collection, and along every completed trace from `new()` of `k`
inserts and `j` removes (a trace completes exactly when every remove hits a
currently-occupied in-bounds index and no insert panics), the final `len()`
satisfies `len + j = k`, i.e. `len = k - j` with `j ≤ k`. -/
theorem len_counts_occupied :
    (∀ c : Collection, Reachable c → c.len = occCount c.inner) ∧
    (∀ (ops : List Op) (c : Collection), runTrace Collection.new ops = some c →
      c.len + countTakes ops = countAdds ops) := by
  constructor
  · intro c h
    have hI := reachable_inv h
    obtain ⟨inner, state⟩ := c
    cases state with
    | Empty =>
      rw [stateInv_empty] at hI
      subst hI
      rfl
    | Full n =>
      obtain ⟨-, -, hocc⟩ := stateInv_full.mp hI
      show n = occCount inner
      omega
    | NotFull n f =>
      obtain ⟨-, -, hocc⟩ := stateInv_notFull.mp hI
      show n = occCount inner
      omega
  · intro ops c h
    have hnew : StateInv Collection.new := stateInv_empty.mpr rfl
    obtain ⟨-, hb⟩ := runTrace_len ops hnew h
    have hlen0 : Collection.new.len = 0 := rfl
    omega

/-- A demonstration trace: three inserts, one valid remove, one more insert. -/
def demoOps : List Op :=
  [.add 10, .add 20, .add 30, .take 1, .add 40]

/-- Witness for C8: running `add(10); add(20); add(30); take(1); add(40)`
from `new()` completes (the re-insert fills the vacated index 1) and the
final length satisfies `len + 1 = 4`. -/
theorem len_counts_occupied_concrete :
    runTrace Collection.new demoOps = some ⟨[some 10, some 40, some 30], .Full 3⟩ ∧
    Collection.len ⟨[some 10, some 40, some 30], .Full 3⟩ + countTakes demoOps
      = countAdds demoOps :=
  ⟨rfl, len_counts_occupied.2 demoOps _ rfl⟩

/-- C9: in every reachable collection `is_empty()` is `true` exactly when the
occupied count is `0`; and a successful `take` from a reachable collection
with `len() = 1` (the last occupied element) leaves the collection in a
degenerate `NotFull(0, _)` state — not `Empty` — in which `is_empty()` is
still `true` and `len()` is `0`. -/
theorem isEmpty_iff_zero_occupied :
    (∀ c : Collection, Reachable c → (c.is_empty = true ↔ occCount c.inner = 0)) ∧
    (∀ (c : Collection) (i v : Nat) (d : Collection), Reachable c → c.len = 1 →
      Collection.take c i = (.ok v, d) →
      (∃ f, d.state = .NotFull 0 f) ∧ d.is_empty = true ∧ d.len = 0) := by
  constructor
  · intro c h
    have hI := reachable_inv h
    obtain ⟨inner, state⟩ := c
    cases state with
    | Empty =>
      rw [stateInv_empty] at hI
      subst hI
      simp [Collection.is_empty, occCount]
    | Full n =>
      obtain ⟨hn, -, hocc⟩ := stateInv_full.mp hI
      show (false = true ↔ occCount inner = 0)
      simp
      omega
    | NotFull n f =>
      obtain ⟨-, -, hocc⟩ := stateInv_notFull.mp hI
      show ((n == 0) = true ↔ occCount inner = 0)
      simp [Nat.beq_eq_true_eq]
      omega
  · intro c i v d hr hlen h
    have hI := reachable_inv hr
    obtain ⟨hId, hlen', n', f', hst⟩ := take_ok_spec hI h
    obtain ⟨dinner, dstate⟩ := d
    have hst' : dstate =.NotFull n' f' := hst
    subst hst'
    have hn' : n' = 0 := by
      have : Collection.len ⟨dinner, .NotFull n' f'⟩ = n' := rfl
      omega
    subst hn'
    exact ⟨⟨f', rfl⟩, rfl, rfl⟩

/-- Witness for C9: taking index `0` from the reachable one-element collection
`⟨[Some 10], Full 1⟩` yields `⟨[None], NotFull(0, 1)⟩`, which is still
reported empty with length `0`. -/
theorem isEmpty_iff_zero_occupied_concrete :
    (∃ f, (⟨[none], .NotFull 0 1⟩ : Collection).state = .NotFull 0 f) ∧
    (⟨[none], .NotFull 0 1⟩ : Collection).is_empty = true ∧
    (⟨[none], .NotFull 0 1⟩ : Collection).len = 0 :=
  isEmpty_iff_zero_occupied.2 _ 0 10 _ reach_full1 rfl rfl

/-! ### The three iterators -/

/-- One `next()` call of the exclusive-borrow iterator
(`Iterator for CollectionIter<&'a mut Collection>`).  The cursor is `pos`;
the slot is looked up with the checked `get_mut`, so the `?` turns an
out-of-range cursor into `none` (iterator exhausted) instead of a panic, and
the `loop` skips vacant slots.  The result records
`(current_idx, value, new cursor)`, where `current_idx` is the storage
position the yielded `&mut u8` points into. -/
def mutNext (l : List (Option Nat)) (pos : Nat) : Option (Nat × Nat × Nat) :=
  match h : l[pos]? with
  | none => none
  | some none => mutNext l (pos + 1)
  | some (some v) => some (pos, v, pos + 1)
termination_by l.length - pos
decreasing_by
  have := getElem?_some_lt h
  omega

lemma mutNext_spec (l : List (Option Nat)) (pos : Nat) :
    (mutNext l pos = none → (l.drop pos).filterMap id = []) ∧
    (∀ idx v p, mutNext l pos = some (idx, v, p) →
      pos ≤ idx ∧ p = idx + 1 ∧ l[idx]? = some (some v) ∧ idx < l.length ∧
      (l.drop pos).filterMap id = v :: (l.drop p).filterMap id) := by
  induction pos using mutNext.induct (l := l) with
  | case1 pos h =>
    constructor
    · intro hm
      have hlen : l.length ≤ pos := by
        by_contra hc
        push_neg at hc
        have : l[pos]? = some l[pos] := List.getElem?_eq_getElem hc
        rw [h] at this
        exact absurd this (by simp)
      rw [List.drop_eq_nil_of_le hlen]
      rfl
    · intro idx v p hm
      rw [mutNext, h] at hm
      exact absurd hm (by simp)
  | case2 pos h ih =>
    have hstep : (l.drop pos).filterMap id = (l.drop (pos + 1)).filterMap id := by
      rw [drop_cons_of_getElem? h]
      rfl
    constructor
    · intro hm
      rw [mutNext, h] at hm
      rw [hstep]
      exact ih.1 hm
    · intro idx v p hm
      rw [mutNext, h] at hm
      obtain ⟨h1, h2, h3, h4, h5⟩ := ih.2 idx v p hm
      exact ⟨by omega, h2, h3, h4, by rw [hstep]; exact h5⟩
  | case3 pos v h =>
    constructor
    · intro hm
      rw [mutNext, h] at hm
      exact absurd hm (by simp)
    · intro idx w p hm
      rw [mutNext, h] at hm
      simp only [Option.some.injEq, Prod.mk.injEq] at hm
      obtain ⟨h1, h2, h3⟩ := hm
      subst h1; subst h2; subst h3
      refine ⟨Nat.le_refl _, rfl, h, getElem?_some_lt h, ?_⟩
      rw [drop_cons_of_getElem? h]
      rfl

/-- Values yielded by repeatedly calling the exclusive-borrow iterator's
`next()` until exhaustion. -/
def mutRun (l : List (Option Nat)) (pos : Nat) : List Nat :=
  match h : mutNext l pos with
  | none => []
  | some (_, v, p) => v :: mutRun l p
termination_by l.length - pos
decreasing_by
  obtain ⟨h1, h2, h3, h4, h5⟩ := (mutNext_spec l pos).2 _ _ _ h
  omega

/-- Storage positions of the references yielded by successive `next()` calls
of the exclusive-borrow iterator. -/
def mutRunIdx (l : List (Option Nat)) (pos : Nat) : List Nat :=
  match h : mutNext l pos with
  | none => []
  | some (idx, _, p) => idx :: mutRunIdx l p
termination_by l.length - pos
decreasing_by
  obtain ⟨h1, h2, h3, h4, h5⟩ := (mutNext_spec l pos).2 _ _ _ h
  omega

lemma mutRun_eq (l : List (Option Nat)) (pos : Nat) :
    mutRun l pos = (l.drop pos).filterMap id := by
  induction pos using mutRun.induct (l := l) with
  | case1 pos h =>
    rw [mutRun, h]
    exact ((mutNext_spec l pos).1 h).symm
  | case2 pos idx v p h ih =>
    obtain ⟨-, -, -, -, h5⟩ := (mutNext_spec l pos).2 _ _ _ h
    rw [mutRun, h, h5]
    show v :: mutRun l p = v :: List.filterMap id (List.drop p l)
    rw [ih]

lemma mutRunIdx_ge (l : List (Option Nat)) :
    ∀ pos, ∀ y ∈ mutRunIdx l pos, pos ≤ y := by
  intro pos
  induction pos using mutRunIdx.induct (l := l) with
  | case1 pos h =>
    rw [mutRunIdx, h]
    intro y hy
    exact absurd hy (by simp)
  | case2 pos idx v p h ih =>
    rw [mutRunIdx, h]
    intro y hy
    obtain ⟨h1, h2, -, -, -⟩ := (mutNext_spec l pos).2 _ _ _ h
    rcases List.mem_cons.mp hy with hy | hy
    · omega
    · have := ih y hy
      omega

/-- The `while self.inner.inner[self.pos].is_none()` loop of the shared-borrow
iterator's `next()`, together with the yield that follows it.  `b` is `limit`
(computed by the caller as `len - 1`) and `i` the cursor; the loop is entered
with `i ≤ b`.  `.error ()` is the panic of the unchecked indexing
`self.inner.inner[self.pos]` (unreachable from `sharedNext`), `.ok none` the
`return None` when the cursor passes `limit`, and `.ok (some (v, p))` yields
the occupied value and the advanced cursor. -/
def scanFrom (l : List (Option Nat)) (b : Nat) (i : Nat) : Except Unit (Option (Nat × Nat)) :=
  match l[i]? with
  | none => .error ()
  | some none => if i + 1 > b then .ok none else scanFrom l b (i + 1)
  | some (some v) => .ok (some (v, i + 1))
termination_by b - i
decreasing_by
  omega

/-- One `next()` call of the shared-borrow iterator
(`Iterator for CollectionIter<&'a Collection>`).  It first computes
`limit = self.inner.inner.len() - 1`; on physically empty storage this call
aborts — the subtraction overflows in a debug build, and in a release build
the wrapped `limit` lets the loop index out of bounds — modelled as
`.error ()`.  Otherwise the cursor is checked against `limit` and the scan
loop runs. -/
def sharedNext (l : List (Option Nat)) (i : Nat) : Except Unit (Option (Nat × Nat)) :=
  if l.length = 0 then .error ()
  else if i > l.length - 1 then .ok none
  else scanFrom l (l.length - 1) i

/-- One `next()` call of the owned iterator
(`Iterator for CollectionIter<Collection>`): the source duplicates the
shared-borrow implementation verbatim (yielding `u8` by copy instead of
`&u8`), so the embedding duplicates `sharedNext`. -/
def ownedNext (l : List (Option Nat)) (i : Nat) : Except Unit (Option (Nat × Nat)) :=
  if l.length = 0 then .error ()
  else if i > l.length - 1 then .ok none
  else scanFrom l (l.length - 1) i

lemma ownedNext_eq_sharedNext : ownedNext = sharedNext := rfl

lemma scanFrom_ok_bounds {l : List (Option Nat)} {b : Nat} :
    ∀ {i v p : Nat}, scanFrom l b i = .ok (some (v, p)) → i < p ∧ p ≤ l.length := by
  intro i
  induction i using scanFrom.induct (l := l) (b := b) with
  | case1 i h =>
    intro v p hm
    rw [scanFrom, h] at hm
    exact absurd hm (by simp)
  | case2 i h hgt =>
    intro v p hm
    rw [scanFrom, h, if_pos hgt] at hm
    exact absurd hm (by simp)
  | case3 i h hgt ih =>
    intro v p hm
    rw [scanFrom, h, if_neg hgt] at hm
    obtain ⟨h1, h2⟩ := ih hm
    exact ⟨by omega, h2⟩
  | case4 i v h =>
    intro w p hm
    rw [scanFrom, h] at hm
    simp only [Except.ok.injEq, Option.some.injEq, Prod.mk.injEq] at hm
    obtain ⟨h1, h2⟩ := hm
    subst h1; subst h2
    have := getElem?_some_lt h
    omega

lemma scanFrom_spec {l : List (Option Nat)} {b : Nat} (hb : b + 1 = l.length) :
    ∀ {i : Nat}, i ≤ b →
    (∀ e, scanFrom l b i ≠ .error e) ∧
    (scanFrom l b i = .ok none → (l.drop i).filterMap id = []) ∧
    (∀ v p, scanFrom l b i = .ok (some (v, p)) →
      (l.drop i).filterMap id = v :: (l.drop p).filterMap id) := by
  intro i
  induction i using scanFrom.induct (l := l) (b := b) with
  | case1 i h =>
    intro hi
    have : l.length ≤ i := by
      by_contra hc
      push_neg at hc
      have h2 : l[i]? = some l[i] := List.getElem?_eq_getElem hc
      rw [h] at h2
      exact absurd h2 (by simp)
    omega
  | case2 i h hgt =>
    intro hi
    have hdrop : l.drop i = none :: l.drop (i + 1) := drop_cons_of_getElem? h
    have hnil : l.drop (i + 1) = [] := List.drop_eq_nil_of_le (by omega)
    refine ⟨?_, ?_, ?_⟩
    · intro e hm
      rw [scanFrom, h, if_pos hgt] at hm
      exact absurd hm (by simp)
    · intro hm
      rw [hdrop, hnil]
      rfl
    · intro v p hm
      rw [scanFrom, h, if_pos hgt] at hm
      exact absurd hm (by simp)
  | case3 i h hgt ih =>
    intro hi
    have hstep : (l.drop i).filterMap id = (l.drop (i + 1)).filterMap id := by
      rw [drop_cons_of_getElem? h]
      rfl
    obtain ⟨ih1, ih2, ih3⟩ := ih (by omega)
    refine ⟨?_, ?_, ?_⟩
    · intro e hm
      rw [scanFrom, h, if_neg hgt] at hm
      exact ih1 e hm
    · intro hm
      rw [scanFrom, h, if_neg hgt] at hm
      rw [hstep]
      exact ih2 hm
    · intro v p hm
      rw [scanFrom, h, if_neg hgt] at hm
      rw [hstep]
      exact ih3 v p hm
  | case4 i v h =>
    intro hi
    refine ⟨?_, ?_, ?_⟩
    · intro e hm
      rw [scanFrom, h] at hm
      exact absurd hm (by simp)
    · intro hm
      rw [scanFrom, h] at hm
      exact absurd hm (by simp)
    · intro w p hm
      rw [scanFrom, h] at hm
      simp only [Except.ok.injEq, Option.some.injEq, Prod.mk.injEq] at hm
      obtain ⟨h1, h2⟩ := hm
      subst h1; subst h2
      rw [drop_cons_of_getElem? h]
      rfl

lemma sharedNext_ok_bounds {l : List (Option Nat)} {i v p : Nat}
    (h : sharedNext l i = .ok (some (v, p))) : i < p ∧ p ≤ l.length := by
  rw [sharedNext] at h
  by_cases h0 : l.length = 0
  · rw [if_pos h0] at h
    exact absurd h (by simp)
  · rw [if_neg h0] at h
    by_cases hgt : i > l.length - 1
    · rw [if_pos hgt] at h
      exact absurd h (by simp)
    · rw [if_neg hgt] at h
      exact scanFrom_ok_bounds h

lemma sharedNext_spec {l : List (Option Nat)} (h0 : l.length ≠ 0) (i : Nat) :
    (∀ e, sharedNext l i ≠ .error e) ∧
    (sharedNext l i = .ok none → (l.drop i).filterMap id = []) ∧
    (∀ v p, sharedNext l i = .ok (some (v, p)) →
      (l.drop i).filterMap id = v :: (l.drop p).filterMap id) := by
  by_cases hgt : i > l.length - 1
  · have hnext : sharedNext l i = .ok none := by
      rw [sharedNext, if_neg h0, if_pos hgt]
    have hnil : l.drop i = [] := List.drop_eq_nil_of_le (by omega)
    refine ⟨?_, ?_, ?_⟩
    · intro e hm
      rw [hnext] at hm
      exact absurd hm (by simp)
    · intro hm
      rw [hnil]
      rfl
    · intro v p hm
      rw [hnext] at hm
      exact absurd hm (by simp)
  · have hnext : sharedNext l i = scanFrom l (l.length - 1) i := by
      rw [sharedNext, if_neg h0, if_neg hgt]
    have hb : (l.length - 1) + 1 = l.length := by omega
    obtain ⟨s1, s2, s3⟩ := scanFrom_spec hb (by omega : i ≤ l.length - 1)
    rw [hnext]
    exact ⟨s1, s2, s3⟩

/-- Values yielded by repeatedly calling the shared-borrow iterator's
`next()`; an abort of any call aborts the traversal. -/
def sharedRun (l : List (Option Nat)) (i : Nat) : Except Unit (List Nat) :=
  match h : sharedNext l i with
  | .error e => .error e
  | .ok none => .ok []
  | .ok (some (v, p)) => (sharedRun l p).map (fun t => v :: t)
termination_by l.length - i
decreasing_by
  have := sharedNext_ok_bounds h
  omega

/-- Values yielded by repeatedly calling the owned iterator's `next()`. -/
def ownedRun (l : List (Option Nat)) (i : Nat) : Except Unit (List Nat) :=
  match h : ownedNext l i with
  | .error e => .error e
  | .ok none => .ok []
  | .ok (some (v, p)) => (ownedRun l p).map (fun t => v :: t)
termination_by l.length - i
decreasing_by
  have := sharedNext_ok_bounds (ownedNext_eq_sharedNext ▸ h)
  omega

lemma sharedRun_eq {l : List (Option Nat)} (h0 : l.length ≠ 0) :
    ∀ i, sharedRun l i = .ok ((l.drop i).filterMap id) := by
  intro i
  induction i using sharedRun.induct (l := l) with
  | case1 i e h =>
    exact absurd h ((sharedNext_spec h0 i).1 _)
  | case2 i h =>
    rw [sharedRun, h, (sharedNext_spec h0 i).2.1 h]
  | case3 i v p h ih =>
    rw [sharedRun, h, (sharedNext_spec h0 i).2.2 v p h]
    show (sharedRun l p).map (fun t => v :: t) = _
    rw [ih]
    rfl

lemma ownedRun_eq {l : List (Option Nat)} (h0 : l.length ≠ 0) :
    ∀ i, ownedRun l i = .ok ((l.drop i).filterMap id) := by
  intro i
  induction i using ownedRun.induct (l := l) with
  | case1 i e h =>
    exact absurd (ownedNext_eq_sharedNext ▸ h) ((sharedNext_spec h0 i).1 _)
  | case2 i h =>
    rw [ownedRun, h, (sharedNext_spec h0 i).2.1 (ownedNext_eq_sharedNext ▸ h)]
  | case3 i v p h ih =>
    rw [ownedRun, h, (sharedNext_spec h0 i).2.2 v p (ownedNext_eq_sharedNext ▸ h)]
    show (ownedRun l p).map (fun t => v :: t) = _
    rw [ih]
    rfl

/-- C5 (counterexample): on a freshly created collection — physically empty
storage — the shared-borrow and owned iterators do not terminate with "no
elements"; their very first `next()` aborts (the `len() - 1` computation
underflows in a debug build; in a release build the wrapped limit sends the
loop out of bounds), so the traversal is an error rather than the empty
yield sequence.  The exclusive-borrow iterator, by contrast, yields exactly
the (zero) occupied values. -/
theorem iter_next_errors_on_empty_storage :
    sharedRun Collection.new.inner 0 = .error () ∧
    ownedRun Collection.new.inner 0 = .error () ∧
    sharedRun Collection.new.inner 0 ≠ .ok (Collection.new.inner.filterMap id) ∧
    mutRun Collection.new.inner 0 = Collection.new.inner.filterMap id := by
  have hs : sharedNext Collection.new.inner 0 = .error () := rfl
  have ho : ownedNext Collection.new.inner 0 = .error () := rfl
  have h1 : sharedRun Collection.new.inner 0 = .error () := by
    rw [sharedRun, hs]
  have h2 : ownedRun Collection.new.inner 0 = .error () := by
    rw [ownedRun, ho]
  refine ⟨h1, h2, ?_, ?_⟩
  · rw [h1]
    simp
  · rw [mutRun_eq]
    rfl

/-- C5 (amended): for every collection with nonempty physical storage, each
of the three iteration modes yields exactly the values held in occupied
slots, in ascending index order, each exactly once, and then terminates
(`List.filterMap id` of the storage is precisely that sequence); the
exclusive-borrow mode does so for every collection, physically empty storage
included. -/
theorem iteration_yields_occupied_in_order (c : Collection) :
    (c.inner ≠ [] →
      sharedRun c.inner 0 = .ok (c.inner.filterMap id) ∧
      ownedRun c.inner 0 = .ok (c.inner.filterMap id)) ∧
    mutRun c.inner 0 = c.inner.filterMap id := by
  constructor
  · intro hne
    have h0 : c.inner.length ≠ 0 := by
      simpa using hne
    constructor
    · rw [sharedRun_eq h0 0, List.drop_zero]
    · rw [ownedRun_eq h0 0, List.drop_zero]
  · rw [mutRun_eq, List.drop_zero]

/-- Witness for C5 (amended) at the concrete storage `[Some 1, None, Some 3]`
(state `NotFull(2, 1)`): all three modes yield `[1, 3]`. -/
theorem iteration_yields_occupied_concrete :
    (sharedRun [some 1, none, some 3] 0 = .ok [1, 3] ∧
     ownedRun [some 1, none, some 3] 0 = .ok [1, 3]) ∧
    mutRun [some 1, none, some 3] 0 = [1, 3] := by
  have h := iteration_yields_occupied_in_order ⟨[some 1, none, some 3], .NotFull 2 1⟩
  exact ⟨h.1 (by simp), h.2⟩

/-- C6: in any single traversal of the exclusive-borrow iterator the storage
positions of successively yielded elements are pairwise strictly increasing
(`List.Pairwise (· < ·)`), so each storage slot is visited at most once and
no two yielded references come from the same slot. -/
theorem iterMut_positions_strict_mono (l : List (Option Nat)) (i : Nat) :
    List.Pairwise (· < ·) (mutRunIdx l i) := by
  induction i using mutRunIdx.induct (l := l) with
  | case1 i h =>
    rw [mutRunIdx, h]
    exact List.Pairwise.nil
  | case2 i idx v p h ih =>
    rw [mutRunIdx, h]
    refine List.Pairwise.cons ?_ ih
    intro y hy
    obtain ⟨h1, h2, -, -, -⟩ := (mutNext_spec l i).2 _ _ _ h
    have h3 := mutRunIdx_ge l p y hy
    omega

/-- C10: the exclusive-borrow iterator's `next()` is total at the storage
boundary: whenever the cursor is at or past the end of the physical storage
(in particular on a freshly created collection, whose storage is empty), the
checked `get_mut` lookup returns `None` and `next()` reports "no more
elements" instead of failing. -/
theorem mutNext_checked_past_end (l : List (Option Nat)) (i : Nat)
    (h : l.length ≤ i) : mutNext l i = none := by
  have hg : l[i]? = none := List.getElem?_eq_none h
  rw [mutNext, hg]

/-- Witness for C10 on the freshly created collection. -/
theorem mutNext_checked_past_end_concrete :
    Collection.new.inner.length ≤ 0 ∧ mutNext Collection.new.inner 0 = none :=
  ⟨Nat.le_refl 0, mutNext_checked_past_end _ 0 (Nat.le_refl 0)⟩
